import Mathlib

/-!
Verification of the result-normalization core of the Label Simplified app
(`agent/ocr.ts`, `agent/explain.ts`, `tools/fetch_json.ts`).

JavaScript strings are modelled as lists of UTF-16 code units (`List Nat`);
`jstr` converts a Lean string literal to that representation.  JavaScript
numbers are modelled as exact rationals plus an explicit NaN constructor
(`JSValue.nan`); `toFixed(3)`-then-`parseFloat` is modelled as rounding to the
nearest multiple of 1/1000 (half away towards positive, as `toFixed`
specifies).  Untrusted JSON-like values are the inductive `JSValue`.
-/

set_option autoImplicit false

namespace LabelSimplified

/-- Code-unit representation of a JavaScript string. -/
abbrev JStr := List Nat

/-- Convert a Lean string literal to its code-unit list. -/
def jstr (s : String) : JStr := s.data.map Char.toNat

/-- Whitespace code units removed by `String.prototype.trim` (ASCII part:
space, tab, LF, CR, VT, FF). -/
def isWS (c : Nat) : Bool := c = 32 || c = 9 || c = 10 || c = 13 || c = 11 || c = 12

/-- Model of `c.toLowerCase()` on a single code unit (ASCII range; the inputs
relevant to the spec are ASCII). -/
def toLowerCU (c : Nat) : Nat := if 65 ≤ c ∧ c ≤ 90 then c + 32 else c

/-- Model of `s.toLowerCase()`. -/
def lowerStr (s : JStr) : JStr := s.map toLowerCU

/-- Drop leading whitespace (first half of `trim`). -/
def dropLeadWS (s : JStr) : JStr := s.dropWhile isWS

/-- Drop trailing whitespace (second half of `trim`). -/
def dropTrailWS (s : JStr) : JStr := (s.reverse.dropWhile isWS).reverse

/-- Model of `s.trim()`. -/
def trimStr (s : JStr) : JStr := dropTrailWS (dropLeadWS s)

/-- Model of `s.split(regexp)` for a single-character class regexp: split the
code-unit list at every unit satisfying `p`, keeping empty segments exactly as
JavaScript `split` does. -/
def splitP (p : Nat → Bool) : JStr → List JStr
  | [] => [[]]
  | c :: cs =>
    if p c then [] :: splitP p cs
    else
      match splitP p cs with
      | [] => [[c]]
      | r :: rs => (c :: r) :: rs

/-- Model of `Array.from(new Set(l))`: deduplicate keeping the first
occurrence of each element, preserving order. -/
def dedupKeepFirst (l : List JStr) : List JStr :=
  l.foldl (fun acc x => if x ∈ acc then acc else acc ++ [x]) []

/-- Model of `needle` being a prefix of `hay` (both code-unit lists). -/
def startsWithCU : JStr → JStr → Bool
  | [], _ => true
  | _ :: _, [] => false
  | a :: as, b :: bs => a == b && startsWithCU as bs

/-- Model of `hay.includes(needle)` (substring test on code units). -/
def includesCU (hay needle : JStr) : Bool :=
  match hay with
  | [] => needle.isEmpty
  | _ :: t => startsWithCU needle hay || includesCU t needle

/-- Model of `s.endsWith(suffix)`. -/
def endsWithCU (s suff : JStr) : Bool := startsWithCU suff.reverse s.reverse

/-- Untyped JavaScript-ish value, the input type of every normalizer.
Numbers are exact rationals with NaN split out as its own constructor. -/
inductive JSValue where
  | undefined
  | null
  | nan
  | bool (b : Bool)
  | num (q : ℚ)
  | str (s : JStr)
  | arr (elems : List JSValue)
  | obj (fields : List (JStr × JSValue))

/-- JavaScript truthiness test: `!v` is true exactly on these values. -/
def isFalsy : JSValue → Bool
  | .undefined => true
  | .null => true
  | .nan => true
  | .bool b => !b
  | .num q => q == 0
  | .str s => s.isEmpty
  | _ => false

/-- Model of `typeof v === "object"` (true for plain objects, arrays and
`null`). -/
def jsTypeofObject : JSValue → Bool
  | .obj _ => true
  | .arr _ => true
  | .null => true
  | _ => false

/-- First-match association lookup on an object's field list. -/
def lookupField : List (JStr × JSValue) → JStr → JSValue
  | [], _ => .undefined
  | (k, v) :: rest, key => if k = key then v else lookupField rest key

/-- Model of the property access `v.key`: `undefined` on anything that is not
a plain object carrying the key (arrays have no such named properties). -/
def getField (v : JSValue) (key : JStr) : JSValue :=
  match v with
  | .obj fields => lookupField fields key
  | _ => .undefined

/-! ## `agent/ocr.ts`: extraction-result normalizers -/

/-- The four allowed `domain_guess` literals. -/
inductive Domain where
  | food
  | drug
  | cosmetic
  | mixed
deriving DecidableEq

/-- Normalized `sections` object; `none` models an omitted key. -/
structure Sections where
  warnings : Option JStr
  claims : Option (List JStr)
deriving DecidableEq

/-- The extraction result shape produced by `analyzeLabel`. -/
structure OCRResult where
  domain_guess : Domain
  ingredients : List JStr
  sections : Sections
  confidence : ℚ
  language : JStr
deriving DecidableEq

/-- Separator class of the first split in `normalizeIngredients`:
newline (10) and the bullet character U+2022 (8226). -/
def isSep1 (c : Nat) : Bool := c = 10 || c = 8226

/-- Separator class of the second split: semicolon (59) and comma (44). -/
def isSep2 (c : Nat) : Bool := c = 59 || c = 44

/-- The per-entry pipeline of `normalizeIngredients`: split on newline/bullet,
split each fragment on semicolon/comma, trim + lowercase, drop empties. -/
def processEntry (s : JStr) : List JStr :=
  (((splitP isSep1 s).flatMap (splitP isSep2)).map
      (fun seg => lowerStr (trimStr seg))).filter
    (fun seg => seg.length > 0)

/-- The per-entry step of the collection loop in `normalizeIngredients`:
a string entry contributes its processed fragments, any other entry is
skipped (`continue` in the source). -/
def entryIngredients : JSValue → List JStr
  | .str s => processEntry s
  | _ => []

/-- `normalizeIngredients` from `agent/ocr.ts`: falsy input yields `[]`;
a non-array is wrapped in a singleton; non-string entries are skipped;
each string entry goes through `processEntry`; finally first-seen
deduplication (`Array.from(new Set(...))`). -/
def normalizeIngredients (raw : JSValue) : List JStr :=
  if isFalsy raw then []
  else
    let items := match raw with | .arr xs => xs | v => [v]
    dedupKeepFirst (items.flatMap entryIngredients)

/-- The per-element body of the `claims` filter in `normalizeSections`:
keep a string whose trim is non-empty, as its trimmed form
(`filter` + `map(trim)` in the source, fused). -/
def sectionClaimFilter : JSValue → Option JStr
  | .str t => if (trimStr t).length > 0 then some (trimStr t) else none
  | _ => none

/-- `normalizeSections` from `agent/ocr.ts`. -/
def normalizeSections (raw : JSValue) : Sections :=
  if isFalsy raw || !jsTypeofObject raw then { warnings := none, claims := none }
  else
    let warnings := match getField raw (jstr "warnings") with
      | .str s => if (trimStr s).length > 0 then some (trimStr s) else none
      | _ => none
    let claims := match getField raw (jstr "claims") with
      | .arr cs =>
        let filtered := cs.filterMap sectionClaimFilter
        if filtered.length > 0 then some filtered else none
      | _ => none
    { warnings := warnings, claims := claims }

/-- `normalizeDomain` from `agent/ocr.ts`: exact match against the four
literals, anything else is `mixed`. -/
def normalizeDomain (domain : JSValue) : Domain :=
  match domain with
  | .str s =>
    if s = jstr "food" then .food
    else if s = jstr "drug" then .drug
    else if s = jstr "cosmetic" then .cosmetic
    else if s = jstr "mixed" then .mixed
    else .mixed
  | _ => .mixed

/-- Model of `Number.parseFloat(q.toFixed(3))`: round to the nearest multiple
of 1/1000 (ties towards the larger value, as `toFixed` specifies). -/
def roundTo3 (q : ℚ) : ℚ := (round (q * 1000) : ℤ) / 1000

/-- `normalizeConfidence` from `agent/ocr.ts`: non-number or NaN yields 0,
negative values clamp to 0, values above 1 clamp to 1, in-range values are
rounded to 3 decimal places. -/
def normalizeConfidence (value : JSValue) : ℚ :=
  match value with
  | .num q => if q < 0 then 0 else if q > 1 then 1 else roundTo3 q
  | _ => 0

/-- Lowercase ASCII letter test, code-unit form of `[a-z]`. -/
def isLowerAlpha (c : Nat) : Bool := 97 ≤ c && c ≤ 122

/-- Code-unit form of `[a-z0-9]`. -/
def isLowerAlnum (c : Nat) : Bool := isLowerAlpha c || (48 ≤ c && c ≤ 57)

/-- The anchored pattern of `normalizeLanguage`,
regexp `[a-z]{2,3}(-[a-z0-9]{2,8})*` over the whole string, rendered as a
condition on the fragments between dashes (45): a 2-3 letter primary subtag
followed by dash-separated 2-8 character alphanumeric subtags. -/
def isLangTag (s : JStr) : Bool :=
  match splitP (fun c => c = 45) s with
  | [] => false
  | first :: rest =>
    (2 ≤ first.length && first.length ≤ 3 && first.all isLowerAlpha) &&
      rest.all (fun g => 2 ≤ g.length && g.length ≤ 8 && g.all isLowerAlnum)

/-- `normalizeLanguage` from `agent/ocr.ts`: non-string or blank yields
`"en"`; otherwise the trimmed, lowercased value if it matches the BCP-47-like
pattern, else `"en"`. -/
def normalizeLanguage (value : JSValue) : JStr :=
  match value with
  | .str s =>
    let trimmed := trimStr s
    if trimmed.length = 0 then jstr "en"
    else
      let lower := lowerStr trimmed
      if isLangTag lower then lower else jstr "en"
  | _ => jstr "en"

/-- The pure result-shaping tail of `analyzeLabel` (`agent/ocr.ts`): build the
`OCRResult` from the parsed upstream JSON value, then cap `confidence` at 0.2
when the normalized ingredient list is empty.  The JavaScript literal `0.2` is
modelled as the exact rational 1/5. -/
def buildOCRResult (raw : JSValue) : OCRResult :=
  let result : OCRResult := {
    domain_guess := normalizeDomain (getField raw (jstr "domain_guess"))
    ingredients := normalizeIngredients (getField raw (jstr "ingredients"))
    sections := normalizeSections (getField raw (jstr "sections"))
    confidence := normalizeConfidence (getField raw (jstr "confidence"))
    language := normalizeLanguage (getField raw (jstr "language")) }
  if result.ingredients.length = 0 then
    { result with confidence := min result.confidence (1 / 5) }
  else result

/-! ## `agent/explain.ts`: explanation-result normalizers -/

/-- The four risk levels. -/
inductive RiskLevel where
  | Green
  | Yellow
  | Red
  | Unknown
deriving DecidableEq

/-- An explanation item as produced by `normalizeItems`. -/
structure ExplanationItem where
  name : JStr
  function : JStr
  risk_level : RiskLevel
  why : JStr
  certainty : ℚ
  sources : List JStr
deriving DecidableEq

/-- An explanation result as produced by `explainIngredients`. -/
structure ExplanationResult where
  summary : JStr
  items : List ExplanationItem
  disclaimer : JStr
deriving DecidableEq

/-- The fixed fallback `DEFAULT_RESULT` of `agent/explain.ts`. -/
def EXPLAIN_DEFAULT_RESULT : ExplanationResult := {
  summary := jstr "Ingredient explanations unavailable while the language service is offline."
  items := []
  disclaimer := jstr "This is not medical advice." }

/-- `normalizeRiskLevel` from `agent/explain.ts`: exact match against the four
literals, anything else is `Unknown`. -/
def normalizeRiskLevel (value : JSValue) : RiskLevel :=
  match value with
  | .str s =>
    if s = jstr "Green" then .Green
    else if s = jstr "Yellow" then .Yellow
    else if s = jstr "Red" then .Red
    else if s = jstr "Unknown" then .Unknown
    else .Unknown
  | _ => .Unknown

/-- `normalizeCertainty` from `agent/explain.ts` (same clamp/round rule as
`normalizeConfidence`). -/
def normalizeCertainty (value : JSValue) : ℚ :=
  match value with
  | .num q => if q < 0 then 0 else if q > 1 then 1 else roundTo3 q
  | _ => 0

/-- The per-element body of the `sources` filter in `buildItem`: keep a
string whose trim is non-empty, verbatim (the source filters but does not
map, so surrounding whitespace survives). -/
def itemSourceFilter : JSValue → Option JStr
  | .str t => if (trimStr t).length > 0 then some t else none
  | _ => none

/-- The `sources` computation of `buildItem`: a non-array yields `[]`, an
array is filtered by `itemSourceFilter`. -/
def itemSources : JSValue → List JStr
  | .arr ss => ss.filterMap itemSourceFilter
  | _ => []

/-- The per-element body of `normalizeItems`: a falsy or non-object entry is
dropped (`undefined` in the source, filtered out afterwards); an object entry
yields an item with the documented per-field defaults.  Note that in
JavaScript `typeof` also reports `"object"` for arrays, whose named property
reads then give `undefined`, which `getField` models. -/
def buildItem (entry : JSValue) : Option ExplanationItem :=
  if isFalsy entry || !jsTypeofObject entry then none
  else some {
    name := match getField entry (jstr "name") with | .str s => s | _ => jstr "Unknown"
    function := match getField entry (jstr "function") with | .str s => s | _ => []
    risk_level := normalizeRiskLevel (getField entry (jstr "risk_level"))
    why := match getField entry (jstr "why") with | .str s => s | _ => []
    certainty := normalizeCertainty (getField entry (jstr "certainty"))
    sources := itemSources (getField entry (jstr "sources")) }

/-- `normalizeItems` from `agent/explain.ts`: non-array input yields `[]`,
otherwise map `buildItem` over the elements and drop the `undefined` ones. -/
def normalizeItems (raw : JSValue) : List ExplanationItem :=
  match raw with
  | .arr xs => xs.filterMap buildItem
  | _ => []

/-- The pure result-shaping tail of `explainIngredients`
(`agent/explain.ts`): from the parsed upstream JSON value, `summary` and
`disclaimer` are taken verbatim when string-typed and fall back to the
defaults otherwise; `items` goes through `normalizeItems`. -/
def explainFromParsed (rawResult : JSValue) : ExplanationResult := {
  summary := match getField rawResult (jstr "summary") with
    | .str s => s
    | _ => EXPLAIN_DEFAULT_RESULT.summary
  items := normalizeItems (getField rawResult (jstr "items"))
  disclaimer := match getField rawResult (jstr "disclaimer") with
    | .str s => s
    | _ => EXPLAIN_DEFAULT_RESULT.disclaimer }

/-! ## HTTP attempt loops -/

/-- An upstream HTTP response as far as the attempt loops observe it. -/
structure HttpResp where
  ok : Bool
  status : Nat
  body : JStr
deriving DecidableEq

/-- The hardcoded default candidate model of `agent/explain.ts`. -/
def DEFAULT_MODEL : JStr := jstr "interfaze-beta"

/-- The candidate-model attempt loop of `explainIngredients`
(`agent/explain.ts`), with the network modelled as a function from candidate
model to response.  On a failed attempt the source records the status and
error body, then the `continue` guard for 400/422 on non-default candidates is
followed by the end of the loop body, so either way the loop advances to the
next candidate; exhaustion raises the last observed status and body (with 500
when no attempt was made at all). -/
def tryModels (resp : JStr → HttpResp) :
    List JStr → Option Nat → JStr → Except (Nat × JStr) HttpResp
  | [], lastStatus, lastErrorText => .error (lastStatus.getD 500, lastErrorText)
  | candidate :: rest, _, _ =>
    let attempt := resp candidate
    if attempt.ok then .ok attempt
    else if (attempt.status == 400 || attempt.status == 422) && candidate != DEFAULT_MODEL
      then tryModels resp rest (some attempt.status) attempt.body
      else tryModels resp rest (some attempt.status) attempt.body

/-- The two request response-format shapes of `analyzeLabel`
(`agent/ocr.ts`): the strict `json_schema` body and the relaxed `json_object`
fallback body. -/
inductive RespFormat where
  | json_schema
  | json_object
deriving DecidableEq

/-- The fetch/retry skeleton of `analyzeLabel` (`agent/ocr.ts`), with the
network modelled as a function from the request's response format to the
response: one strict attempt, exactly one relaxed retry when the strict
attempt fails with 400 or 422, then a terminal error carrying the status and
error body if the resulting response is still not ok. -/
def analyzeLabelFetch (doFetch : RespFormat → HttpResp) :
    Except (Nat × JStr) HttpResp :=
  let response := doFetch .json_schema
  let response :=
    if !response.ok && (response.status == 400 || response.status == 422)
      then doFetch .json_object else response
  if !response.ok then .error (response.status, response.body) else .ok response

/-! ## `tools/fetch_json.ts` -/

/-- The two whitelisted domains. -/
def WHITELIST : List JStr := [jstr "openfoodfacts.org", jstr "openbeautyfacts.org"]

/-- `isWhitelisted` from `tools/fetch_json.ts`, modelled on the result of
`new URL(url)`: `none` is a URL that fails to parse (the `catch` branch);
otherwise the parsed hostname must equal a whitelisted domain or end with
`"." + domain`. -/
def isWhitelisted (hostname : Option JStr) : Bool :=
  match hostname with
  | none => false
  | some h => WHITELIST.any (fun domain => h == domain || endsWithCU h (jstr "." ++ domain))

/-- A network response as observed by `fetch_json`: status, ok flag, the
`content-type` header (`none` models a missing header) and the parsed JSON
body used when everything checks out. -/
structure FetchResponse where
  ok : Bool
  status : Nat
  contentType : Option JStr
  body : JSValue

/-- The distinct failure modes (`throw` sites) of `fetch_json`. -/
inductive FetchError where
  | notAllowed
  | httpStatus (status : Nat)
  | notJson
deriving DecidableEq

/-- `fetch_json` from `tools/fetch_json.ts` with the network modelled as a
thunk, so that the whitelist rejection provably happens for every possible
network behavior: non-whitelisted URL rejects immediately; a non-ok status
raises; a missing content type or one not containing `application/json`
raises; otherwise the parsed JSON body is returned.  The 6-second timeout is
real time and outside this model. -/
def fetch_json (hostname : Option JStr) (doFetch : Unit → FetchResponse) :
    Except FetchError JSValue :=
  if !isWhitelisted hostname then .error .notAllowed
  else
    let response := doFetch ()
    if !response.ok then .error (.httpStatus response.status)
    else
      match response.contentType with
      | none => .error .notJson
      | some ct =>
        if includesCU ct (jstr "application/json") then .ok response.body
        else .error .notJson

/-! ## Re-encoding normalized values as JavaScript values (for idempotence) -/

/-- The JavaScript string of a normalized domain. -/
def domainToJS : Domain → JSValue
  | .food => .str (jstr "food")
  | .drug => .str (jstr "drug")
  | .cosmetic => .str (jstr "cosmetic")
  | .mixed => .str (jstr "mixed")

/-- A normalized ingredient list as the JavaScript array it is. -/
def ingredientsToJS (l : List JStr) : JSValue := .arr (l.map .str)

/-- A normalized sections value as the JavaScript object it is (omitted keys
are genuinely absent). -/
def sectionsToJS (s : Sections) : JSValue :=
  .obj ((match s.warnings with
          | some w => [(jstr "warnings", .str w)]
          | none => []) ++
        (match s.claims with
          | some cs => [(jstr "claims", .arr (cs.map .str))]
          | none => []))

/-- The JavaScript string of a risk level. -/
def riskToJS : RiskLevel → JSValue
  | .Green => .str (jstr "Green")
  | .Yellow => .str (jstr "Yellow")
  | .Red => .str (jstr "Red")
  | .Unknown => .str (jstr "Unknown")

/-- A normalized explanation item as the JavaScript object it is. -/
def itemToJS (it : ExplanationItem) : JSValue :=
  .obj [(jstr "name", .str it.name),
        (jstr "function", .str it.function),
        (jstr "risk_level", riskToJS it.risk_level),
        (jstr "why", .str it.why),
        (jstr "certainty", .num it.certainty),
        (jstr "sources", .arr (it.sources.map .str))]

/-- A normalized item list as the JavaScript array it is. -/
def itemsToJS (l : List ExplanationItem) : JSValue := .arr (l.map itemToJS)

/-! ## Helper lemmas: code-unit and string operations -/

theorem toLowerCU_idem (c : Nat) : toLowerCU (toLowerCU c) = toLowerCU c := by
  unfold toLowerCU
  split
  · split
    · omega
    · rfl
  · rfl

theorem isWS_toLowerCU (c : Nat) : isWS (toLowerCU c) = isWS c := by
  unfold toLowerCU
  split
  · next h =>
    have h1 : isWS (c + 32) = false := by
      unfold isWS
      simp only [Bool.or_eq_false_iff, decide_eq_false_iff_not]
      omega
    have h2 : isWS c = false := by
      unfold isWS
      simp only [Bool.or_eq_false_iff, decide_eq_false_iff_not]
      omega
    rw [h1, h2]
  · rfl

theorem lowerStr_idem (s : JStr) : lowerStr (lowerStr s) = lowerStr s := by
  simp only [lowerStr, List.map_map]
  apply List.map_congr_left
  intro c _
  exact toLowerCU_idem c

theorem dropWhile_idem {α : Type} (p : α → Bool) (l : List α) :
    List.dropWhile p (List.dropWhile p l) = List.dropWhile p l := by
  induction l with
  | nil => rfl
  | cons c cs ih =>
    rw [List.dropWhile_cons]
    split
    · exact ih
    · rw [List.dropWhile_cons]
      simp [*]

theorem dropWhile_eq_self_of_noMatch {α : Type} (p : α → Bool) (l : List α)
    (h : ∀ c ∈ l, p c = false) : List.dropWhile p l = l := by
  cases l with
  | nil => rfl
  | cons c cs =>
    rw [List.dropWhile_cons, h c (List.mem_cons_self c cs)]
    simp

theorem dropLeadWS_idem (s : JStr) : dropLeadWS (dropLeadWS s) = dropLeadWS s :=
  dropWhile_idem isWS s

theorem dropTrailWS_idem (s : JStr) : dropTrailWS (dropTrailWS s) = dropTrailWS s := by
  unfold dropTrailWS
  rw [List.reverse_reverse, dropWhile_idem]

theorem dropTrailWS_prefix (s : JStr) :
    s = dropTrailWS s ++ (s.reverse.takeWhile isWS).reverse := by
  unfold dropTrailWS
  rw [← List.reverse_append, List.takeWhile_append_dropWhile, List.reverse_reverse]

theorem dropLeadWS_of_dropLead_head (s : JStr) :
    dropLeadWS s = [] ∨ ∃ c t, dropLeadWS s = c :: t ∧ isWS c = false := by
  induction s with
  | nil => exact Or.inl rfl
  | cons c cs ih =>
    unfold dropLeadWS at *
    rw [List.dropWhile_cons]
    split
    · exact ih
    · exact Or.inr ⟨c, cs, rfl, by simp_all⟩

theorem trimStr_idem (s : JStr) : trimStr (trimStr s) = trimStr s := by
  unfold trimStr
  have htrail : dropTrailWS (dropTrailWS (dropLeadWS s)) = dropTrailWS (dropLeadWS s) :=
    dropTrailWS_idem (dropLeadWS s)
  have hlead : dropLeadWS (dropTrailWS (dropLeadWS s)) = dropTrailWS (dropLeadWS s) := by
    rcases dropLeadWS_of_dropLead_head s with h0 | ⟨c, t, heq, hc⟩
    · rw [h0]
      rfl
    · rcases hx : dropTrailWS (dropLeadWS s) with _ | ⟨d, u⟩
      · rfl
      · have hpre := dropTrailWS_prefix (dropLeadWS s)
        rw [hx, heq] at hpre
        rw [List.cons_append] at hpre
        injection hpre with h1 h2
        have hd : d = c := h1.symm
        unfold dropLeadWS
        rw [List.dropWhile_cons, hd, hc]
        simp
  rw [hlead, htrail]

theorem dropWhile_congr_local {α : Type} (p q : α → Bool) (l : List α)
    (h : ∀ c, p c = q c) : List.dropWhile p l = List.dropWhile q l := by
  induction l with
  | nil => rfl
  | cons c cs ih =>
    rw [List.dropWhile_cons, List.dropWhile_cons, h c, ih]

theorem dropLeadWS_lowerStr (s : JStr) :
    dropLeadWS (lowerStr s) = lowerStr (dropLeadWS s) := by
  unfold dropLeadWS lowerStr
  rw [List.dropWhile_map]
  congr 1
  apply dropWhile_congr_local
  intro c
  exact isWS_toLowerCU c

theorem dropTrailWS_lowerStr (s : JStr) :
    dropTrailWS (lowerStr s) = lowerStr (dropTrailWS s) := by
  unfold dropTrailWS lowerStr
  rw [← List.map_reverse, List.dropWhile_map, ← List.map_reverse]
  congr 2
  apply dropWhile_congr_local
  intro c
  exact isWS_toLowerCU c

theorem trimStr_lowerStr (s : JStr) : trimStr (lowerStr s) = lowerStr (trimStr s) := by
  unfold trimStr
  rw [dropLeadWS_lowerStr, dropTrailWS_lowerStr]

theorem trimStr_subset (s : JStr) (c : Nat) (h : c ∈ trimStr s) : c ∈ s := by
  unfold trimStr dropTrailWS dropLeadWS at h
  rw [List.mem_reverse] at h
  have h1 := (List.dropWhile_sublist (l := (List.dropWhile isWS s).reverse) isWS).subset h
  rw [List.mem_reverse] at h1
  exact (List.dropWhile_sublist isWS).subset h1

theorem trimStr_eq_self_of_noWS (s : JStr) (h : ∀ c ∈ s, isWS c = false) :
    trimStr s = s := by
  unfold trimStr dropTrailWS dropLeadWS
  rw [dropWhile_eq_self_of_noMatch isWS s h,
      dropWhile_eq_self_of_noMatch isWS s.reverse (by intro c hc; exact h c (List.mem_reverse.mp hc)),
      List.reverse_reverse]

/-! ## Helper lemmas: `splitP` -/

theorem splitP_ne_nil (p : Nat → Bool) (s : JStr) : splitP p s ≠ [] := by
  induction s with
  | nil => simp [splitP]
  | cons c cs ih =>
    unfold splitP
    split
    · simp
    · split
      · simp
      · simp

theorem splitP_sep_free (p : Nat → Bool) (s : JStr) (seg : JStr) (c : Nat)
    (hseg : seg ∈ splitP p s) (hc : c ∈ seg) : p c = false := by
  induction s generalizing seg with
  | nil =>
    simp [splitP] at hseg
    subst hseg
    simp at hc
  | cons d ds ih =>
    unfold splitP at hseg
    split at hseg
    · rcases List.mem_cons.mp hseg with h | h
      · subst h
        simp at hc
      · exact ih seg h hc
    · next hd =>
      rcases hr : splitP p ds with _ | ⟨r, rs⟩
      · exact absurd hr (splitP_ne_nil p ds)
      · rw [hr] at hseg
        rcases List.mem_cons.mp hseg with h | h
        · subst h
          rcases List.mem_cons.mp hc with h2 | h2
          · subst h2
            simpa using hd
          · exact ih r (by rw [hr]; exact List.mem_cons_self r rs) h2
        · exact ih seg (by rw [hr]; exact List.mem_cons_of_mem r h) hc

theorem splitP_subset (p : Nat → Bool) (s : JStr) (seg : JStr) (c : Nat)
    (hseg : seg ∈ splitP p s) (hc : c ∈ seg) : c ∈ s := by
  induction s generalizing seg with
  | nil =>
    simp [splitP] at hseg
    subst hseg
    simp at hc
  | cons d ds ih =>
    unfold splitP at hseg
    split at hseg
    · rcases List.mem_cons.mp hseg with h | h
      · subst h
        simp at hc
      · exact List.mem_cons_of_mem d (ih seg h hc)
    · rcases hr : splitP p ds with _ | ⟨r, rs⟩
      · exact absurd hr (splitP_ne_nil p ds)
      · rw [hr] at hseg
        rcases List.mem_cons.mp hseg with h | h
        · subst h
          rcases List.mem_cons.mp hc with h2 | h2
          · exact h2 ▸ List.mem_cons_self d ds
          · exact List.mem_cons_of_mem d
              (ih r (by rw [hr]; exact List.mem_cons_self r rs) h2)
        · exact List.mem_cons_of_mem d (ih seg (by rw [hr]; exact List.mem_cons_of_mem r h) hc)

theorem splitP_eq_single (p : Nat → Bool) (s : JStr)
    (h : ∀ c ∈ s, p c = false) : splitP p s = [s] := by
  induction s with
  | nil => rfl
  | cons c cs ih =>
    unfold splitP
    rw [h c (List.mem_cons_self c cs)]
    simp only [Bool.false_eq_true, if_false]
    rw [ih (fun d hd => h d (List.mem_cons_of_mem c hd))]

theorem splitP_cover (p : Nat → Bool) (s : JStr) (c : Nat) (hc : c ∈ s) :
    p c = true ∨ ∃ seg ∈ splitP p s, c ∈ seg := by
  induction s with
  | nil => simp at hc
  | cons d ds ih =>
    rcases List.mem_cons.mp hc with h | h
    · subst h
      by_cases hp : p c = true
      · exact Or.inl hp
      · right
        unfold splitP
        rw [Bool.not_eq_true] at hp
        rw [hp]
        simp only [Bool.false_eq_true, if_false]
        rcases hr : splitP p ds with _ | ⟨r, rs⟩
        · exact absurd hr (splitP_ne_nil p ds)
        · exact ⟨c :: r, List.mem_cons_self _ _, List.mem_cons_self _ _⟩
    · rcases ih h with hp | ⟨seg, hseg, hmem⟩
      · exact Or.inl hp
      · right
        unfold splitP
        split
        · exact ⟨seg, List.mem_cons_of_mem _ hseg, hmem⟩
        · rcases hr : splitP p ds with _ | ⟨r, rs⟩
          · exact absurd hr (splitP_ne_nil p ds)
          · rw [hr] at hseg
            rcases List.mem_cons.mp hseg with h2 | h2
            · exact ⟨d :: r, List.mem_cons_self _ _, by
                subst h2
                exact List.mem_cons_of_mem d hmem⟩
            · exact ⟨seg, List.mem_cons_of_mem _ h2, hmem⟩

/-! ## Helper lemmas: `dedupKeepFirst` -/

theorem dedupKeepFirst_step_aux (l : List JStr) (acc : List JStr) (hacc : acc.Nodup) :
    (l.foldl (fun acc x => if x ∈ acc then acc else acc ++ [x]) acc).Nodup := by
  induction l generalizing acc with
  | nil => exact hacc
  | cons x xs ih =>
    rw [List.foldl_cons]
    by_cases hx : x ∈ acc
    · rw [if_pos hx]
      exact ih acc hacc
    · rw [if_neg hx]
      apply ih
      rw [List.nodup_append]
      exact ⟨hacc, List.nodup_singleton x, by rw [List.disjoint_singleton]; exact hx⟩

theorem dedupKeepFirst_nodup (l : List JStr) : (dedupKeepFirst l).Nodup :=
  dedupKeepFirst_step_aux l [] List.nodup_nil

theorem dedupKeepFirst_mem_aux (l : List JStr) (acc : List JStr) (x : JStr)
    (h : x ∈ l.foldl (fun acc x => if x ∈ acc then acc else acc ++ [x]) acc) :
    x ∈ acc ∨ x ∈ l := by
  induction l generalizing acc with
  | nil => exact Or.inl h
  | cons y ys ih =>
    rw [List.foldl_cons] at h
    by_cases hy : y ∈ acc
    · rw [if_pos hy] at h
      rcases ih acc h with h2 | h2
      · exact Or.inl h2
      · exact Or.inr (List.mem_cons_of_mem y h2)
    · rw [if_neg hy] at h
      rcases ih (acc ++ [y]) h with h2 | h2
      · rcases List.mem_append.mp h2 with h3 | h3
        · exact Or.inl h3
        · simp at h3
          exact Or.inr (h3 ▸ List.mem_cons_self y ys)
      · exact Or.inr (List.mem_cons_of_mem y h2)

theorem dedupKeepFirst_mem (l : List JStr) (x : JStr) (h : x ∈ dedupKeepFirst l) :
    x ∈ l := by
  rcases dedupKeepFirst_mem_aux l [] x h with h2 | h2
  · simp at h2
  · exact h2

theorem dedupKeepFirst_eq_self_aux (l : List JStr) (acc : List JStr)
    (h : (acc ++ l).Nodup) :
    l.foldl (fun acc x => if x ∈ acc then acc else acc ++ [x]) acc = acc ++ l := by
  induction l generalizing acc with
  | nil => simp
  | cons x xs ih =>
    rw [List.foldl_cons]
    have hx : x ∉ acc := by
      rw [List.nodup_append] at h
      intro hmem
      exact h.2.2 hmem (List.mem_cons_self x xs)
    rw [if_neg hx]
    have h2 : ((acc ++ [x]) ++ xs).Nodup := by
      rw [List.append_assoc]
      simpa using h
    rw [ih (acc ++ [x]) h2, List.append_assoc]
    simp

theorem dedupKeepFirst_eq_self (l : List JStr) (h : l.Nodup) : dedupKeepFirst l = l := by
  have := dedupKeepFirst_eq_self_aux l [] (by simpa using h)
  simpa [dedupKeepFirst] using this

/-! ## Helper lemmas: the ingredient pipeline -/

theorem isSep1_toLowerCU (c : Nat) (h : isSep1 c = false) : isSep1 (toLowerCU c) = false := by
  unfold toLowerCU
  split
  · unfold isSep1
    simp only [Bool.or_eq_false_iff, decide_eq_false_iff_not]
    omega
  · exact h

theorem isSep2_toLowerCU (c : Nat) (h : isSep2 c = false) : isSep2 (toLowerCU c) = false := by
  unfold toLowerCU
  split
  · unfold isSep2
    simp only [Bool.or_eq_false_iff, decide_eq_false_iff_not]
    omega
  · exact h

theorem processEntry_good (s : JStr) (t : JStr) (ht : t ∈ processEntry s) :
    (∀ c ∈ t, isSep1 c = false ∧ isSep2 c = false) ∧
      trimStr t = t ∧ lowerStr t = t ∧ t ≠ [] := by
  unfold processEntry at ht
  rw [List.mem_filter] at ht
  obtain ⟨hmap, hlen⟩ := ht
  rw [List.mem_map] at hmap
  obtain ⟨seg, hseg, hteq⟩ := hmap
  rw [List.mem_flatMap] at hseg
  obtain ⟨seg1, hseg1, hseg2⟩ := hseg
  subst hteq
  refine ⟨?_, ?_, ?_, ?_⟩
  · intro c hc
    rw [lowerStr, List.mem_map] at hc
    obtain ⟨c0, hc0, hceq⟩ := hc
    have hc0seg : c0 ∈ seg := trimStr_subset seg c0 hc0
    have h2 : isSep2 c0 = false := splitP_sep_free isSep2 seg1 seg c0 hseg2 hc0seg
    have h1 : isSep1 c0 = false := by
      have hc0seg1 : c0 ∈ seg1 := splitP_subset isSep2 seg1 seg c0 hseg2 hc0seg
      exact splitP_sep_free isSep1 s seg1 c0 hseg1 hc0seg1
    exact hceq ▸ ⟨isSep1_toLowerCU c0 h1, isSep2_toLowerCU c0 h2⟩
  · rw [trimStr_lowerStr, trimStr_idem]
  · exact lowerStr_idem (trimStr seg)
  · intro hnil
    rw [hnil] at hlen
    simp at hlen

theorem processEntry_self (t : JStr)
    (hsep : ∀ c ∈ t, isSep1 c = false ∧ isSep2 c = false)
    (htrim : trimStr t = t) (hlow : lowerStr t = t) (hne : t ≠ []) :
    processEntry t = [t] := by
  unfold processEntry
  rw [splitP_eq_single isSep1 t (fun c hc => (hsep c hc).1)]
  rw [List.flatMap_singleton, splitP_eq_single isSep2 t (fun c hc => (hsep c hc).2)]
  simp only [List.map_cons, List.map_nil, htrim, hlow]
  rw [List.filter_cons]
  have : t.length > 0 := List.length_pos.mpr hne
  simp [this]

theorem normalizeIngredients_mem_good (v : JSValue) (t : JStr)
    (ht : t ∈ normalizeIngredients v) :
    (∀ c ∈ t, isSep1 c = false ∧ isSep2 c = false) ∧
      trimStr t = t ∧ lowerStr t = t ∧ t ≠ [] := by
  unfold normalizeIngredients at ht
  split at ht
  · simp at ht
  · have hcol := dedupKeepFirst_mem _ t ht
    rw [List.mem_flatMap] at hcol
    obtain ⟨entry, _, hmem⟩ := hcol
    rcases entry with _ | _ | _ | b | q | s | xs | fields
    all_goals simp [entryIngredients] at hmem
    exact processEntry_good s t hmem

theorem normalizeIngredients_nodup (v : JSValue) : (normalizeIngredients v).Nodup := by
  unfold normalizeIngredients
  split
  · exact List.nodup_nil
  · exact dedupKeepFirst_nodup _

theorem flatMap_processEntry_self (l : List JStr)
    (hgood : ∀ t ∈ l, (∀ c ∈ t, isSep1 c = false ∧ isSep2 c = false) ∧
      trimStr t = t ∧ lowerStr t = t ∧ t ≠ []) :
    (l.map JSValue.str).flatMap entryIngredients = l := by
  induction l with
  | nil => rfl
  | cons t ts ih =>
    rw [List.map_cons, List.flatMap_cons]
    obtain ⟨hsep, htrim, hlow, hne⟩ := hgood t (List.mem_cons_self t ts)
    show processEntry t ++ _ = t :: ts
    rw [processEntry_self t hsep htrim hlow hne,
      ih (fun u hu => hgood u (List.mem_cons_of_mem t hu))]
    rfl

theorem normalizeIngredients_idem (v : JSValue) :
    normalizeIngredients (ingredientsToJS (normalizeIngredients v)) =
      normalizeIngredients v := by
  have hflat := flatMap_processEntry_self (normalizeIngredients v)
    (fun t ht => normalizeIngredients_mem_good v t ht)
  have hstep : normalizeIngredients (.arr ((normalizeIngredients v).map .str)) =
      dedupKeepFirst
        (((normalizeIngredients v).map JSValue.str).flatMap entryIngredients) := rfl
  show normalizeIngredients (.arr ((normalizeIngredients v).map .str)) =
    normalizeIngredients v
  rw [hstep, hflat]
  exact dedupKeepFirst_eq_self _ (normalizeIngredients_nodup v)

/-! ## Helper lemmas: confidence / certainty -/

theorem normalizeCertainty_eq_confidence (v : JSValue) :
    normalizeCertainty v = normalizeConfidence v := by
  cases v <;> rfl

theorem roundTo3_bounds (q : ℚ) (h0 : 0 ≤ q) (h1 : q ≤ 1) :
    0 ≤ round (q * 1000) ∧ round (q * 1000) ≤ 1000 := by
  rw [round_eq]
  constructor
  · have h2 : ⌊(1 / 2 : ℚ)⌋ = 0 := by
      rw [Int.floor_eq_iff]
      norm_num
    rw [← h2]
    apply Int.floor_mono
    nlinarith
  · have h2 : ⌊(2001 / 2 : ℚ)⌋ = 1000 := by
      rw [Int.floor_eq_iff]
      norm_num
    rw [← h2]
    apply Int.floor_mono
    nlinarith

theorem normalizeConfidence_form (v : JSValue) :
    ∃ n : ℤ, normalizeConfidence v = (n : ℚ) / 1000 ∧ 0 ≤ n ∧ n ≤ 1000 := by
  cases v
  case num q =>
    simp only [normalizeConfidence]
    by_cases hneg : q < 0
    · exact ⟨0, by rw [if_pos hneg]; norm_num⟩
    · by_cases hbig : q > 1
      · refine ⟨1000, ?_, by norm_num, le_refl _⟩
        rw [if_neg hneg, if_pos hbig]
        norm_num
      · push_neg at hneg hbig
        obtain ⟨hl, hr⟩ := roundTo3_bounds q hneg hbig
        exact ⟨round (q * 1000), by rw [if_neg (not_lt.mpr hneg), if_neg (not_lt.mpr hbig)]; rfl,
          hl, hr⟩
  all_goals exact ⟨0, by norm_num [normalizeConfidence]⟩

theorem normalizeConfidence_range (v : JSValue) :
    0 ≤ normalizeConfidence v ∧ normalizeConfidence v ≤ 1 := by
  obtain ⟨n, heq, h0, h1⟩ := normalizeConfidence_form v
  rw [heq]
  constructor
  · positivity
  · rw [div_le_one (by norm_num)]
    exact_mod_cast (by exact_mod_cast h1 : (n : ℚ) ≤ 1000)

theorem roundTo3_int_div (n : ℤ) : roundTo3 ((n : ℚ) / 1000) = (n : ℚ) / 1000 := by
  unfold roundTo3
  rw [div_mul_cancel₀ _ (by norm_num : (1000 : ℚ) ≠ 0), round_intCast]

theorem normalizeConfidence_idem (v : JSValue) :
    normalizeConfidence (.num (normalizeConfidence v)) = normalizeConfidence v := by
  obtain ⟨n, heq, h0, h1⟩ := normalizeConfidence_form v
  rw [heq]
  simp only [normalizeConfidence]
  have hge : ¬ ((n : ℚ) / 1000 < 0) := by
    push_neg
    positivity
  have hle : ¬ ((n : ℚ) / 1000 > 1) := by
    push_neg
    rw [div_le_one (by norm_num)]
    exact_mod_cast h1
  rw [if_neg hge, if_neg hle]
  exact roundTo3_int_div n

/-! ## Helper lemmas: domain and risk level -/

theorem normalizeDomain_domainToJS (d : Domain) : normalizeDomain (domainToJS d) = d := by
  cases d <;> decide

theorem normalizeRiskLevel_riskToJS (r : RiskLevel) :
    normalizeRiskLevel (riskToJS r) = r := by
  cases r <;> decide

/-! ## Helper lemmas: language tags -/

theorem isLangTag_chars (s : JStr) (h : isLangTag s = true) (c : Nat) (hc : c ∈ s) :
    isLowerAlnum c = true ∨ c = 45 := by
  rcases splitP_cover (fun c => c = 45) s c hc with hp | ⟨seg, hseg, hmem⟩
  · right
    simpa using hp
  · left
    unfold isLangTag at h
    rcases hr : splitP (fun c => c = 45) s with _ | ⟨first, rest⟩
    · exact absurd hr (splitP_ne_nil _ s)
    · rw [hr] at h hseg
      simp only [Bool.and_eq_true] at h
      obtain ⟨⟨_, hfirst⟩, hrest⟩ := h
      rcases List.mem_cons.mp hseg with h2 | h2
      · subst h2
        have := (List.all_eq_true.mp hfirst) c hmem
        unfold isLowerAlnum
        rw [this]
        simp
      · have hg := (List.all_eq_true.mp hrest) seg h2
        simp only [Bool.and_eq_true] at hg
        exact (List.all_eq_true.mp hg.2) c hmem

theorem isLangTag_ne_nil (s : JStr) (h : isLangTag s = true) : s ≠ [] := by
  intro hnil
  subst hnil
  simp [isLangTag, splitP] at h

theorem isWS_of_lowerAlnumDash (c : Nat) (h : isLowerAlnum c = true ∨ c = 45) :
    isWS c = false := by
  unfold isWS
  simp only [Bool.or_eq_false_iff, decide_eq_false_iff_not]
  rcases h with h | h
  · unfold isLowerAlnum isLowerAlpha at h
    simp only [Bool.or_eq_true, Bool.and_eq_true, decide_eq_true_eq] at h
    omega
  · omega

theorem toLowerCU_of_lowerAlnumDash (c : Nat) (h : isLowerAlnum c = true ∨ c = 45) :
    toLowerCU c = c := by
  unfold toLowerCU
  rw [if_neg]
  rcases h with h | h
  · unfold isLowerAlnum isLowerAlpha at h
    simp only [Bool.or_eq_true, Bool.and_eq_true, decide_eq_true_eq] at h
    omega
  · omega

theorem normalizeLanguage_str (s : JStr) :
    normalizeLanguage (.str s) =
      (if (trimStr s).length = 0 then jstr "en"
       else if isLangTag (lowerStr (trimStr s)) then lowerStr (trimStr s)
       else jstr "en") := rfl

theorem normalizeLanguage_fix (o : JStr) (h : isLangTag o = true) :
    normalizeLanguage (.str o) = o := by
  have hchars : ∀ c ∈ o, isLowerAlnum c = true ∨ c = 45 :=
    fun c hc => isLangTag_chars o h c hc
  have htrim : trimStr o = o :=
    trimStr_eq_self_of_noWS o (fun c hc => isWS_of_lowerAlnumDash c (hchars c hc))
  have hlow : lowerStr o = o := by
    unfold lowerStr
    rw [List.map_congr_left (fun c hc => toLowerCU_of_lowerAlnumDash c (hchars c hc))]
    exact List.map_id o
  rw [normalizeLanguage_str, htrim, hlow]
  rw [if_neg (by
    rw [List.length_eq_zero]
    exact isLangTag_ne_nil o h)]
  simp only [h, if_true]

theorem normalizeLanguage_form (v : JSValue) :
    isLangTag (normalizeLanguage v) = true := by
  have hen : isLangTag (jstr "en") = true := by decide
  cases v
  case str s =>
    rw [normalizeLanguage_str]
    split
    · exact hen
    · split
      · next h => exact h
      · exact hen
  all_goals exact hen

theorem normalizeLanguage_idem (v : JSValue) :
    normalizeLanguage (.str (normalizeLanguage v)) = normalizeLanguage v :=
  normalizeLanguage_fix (normalizeLanguage v) (normalizeLanguage_form v)

/-! ## Helper lemmas: sections -/

theorem sectionClaimFilter_eq_some (a : JSValue) (c : JStr)
    (h : sectionClaimFilter a = some c) :
    ∃ t, a = .str t ∧ c = trimStr t ∧ (trimStr t).length > 0 := by
  cases a with
  | str t =>
    have h2 : sectionClaimFilter (.str t) =
        if (trimStr t).length > 0 then some (trimStr t) else none := rfl
    rw [h2] at h
    split at h
    · next hl =>
      injection h with h3
      exact ⟨t, rfl, h3.symm, hl⟩
    · simp at h
  | undefined => exact Option.noConfusion h
  | null => exact Option.noConfusion h
  | nan => exact Option.noConfusion h
  | bool b => exact Option.noConfusion h
  | num q => exact Option.noConfusion h
  | arr ys => exact Option.noConfusion h
  | obj fs => exact Option.noConfusion h

theorem sectionFilter_self (cs : List JStr)
    (h : ∀ c ∈ cs, trimStr c = c ∧ c.length > 0) :
    (cs.map JSValue.str).filterMap sectionClaimFilter = cs := by
  induction cs with
  | nil => rfl
  | cons c rest ih =>
    obtain ⟨hc1, hc2⟩ := h c (List.mem_cons_self c rest)
    have hf : sectionClaimFilter (.str c) = some c := by
      have h2 : sectionClaimFilter (.str c) =
          if (trimStr c).length > 0 then some (trimStr c) else none := rfl
      rw [h2, hc1, if_pos hc2]
    rw [List.map_cons, List.filterMap_cons, hf,
      ih (fun d hd => h d (List.mem_cons_of_mem c hd))]

theorem normalizeSections_warnings_inv (raw : JSValue) (w : JStr)
    (h : (normalizeSections raw).warnings = some w) :
    trimStr w = w ∧ w.length > 0 := by
  unfold normalizeSections at h
  split at h
  · simp at h
  · simp only at h
    split at h
    · next s heq =>
      split at h
      · next hlen =>
        injection h with h2
        subst h2
        exact ⟨trimStr_idem s, hlen⟩
      · exact absurd h (by simp)
    · exact absurd h (by simp)

theorem normalizeSections_claims_inv (raw : JSValue) (cs : List JStr)
    (h : (normalizeSections raw).claims = some cs) :
    cs.length > 0 ∧ ∀ c ∈ cs, trimStr c = c ∧ c.length > 0 := by
  unfold normalizeSections at h
  split at h
  · simp at h
  · simp only at h
    split at h
    · next xs heq =>
      split at h
      · next hlen =>
        injection h with h2
        subst h2
        refine ⟨hlen, ?_⟩
        intro c hc
        rw [List.mem_filterMap] at hc
        obtain ⟨a, _, ha⟩ := hc
        obtain ⟨t, _, hct, hl⟩ := sectionClaimFilter_eq_some a c ha
        subst hct
        exact ⟨trimStr_idem t, hl⟩
      · exact absurd h (by simp)
    · exact absurd h (by simp)

theorem normalizeSections_idem (raw : JSValue) :
    normalizeSections (sectionsToJS (normalizeSections raw)) = normalizeSections raw := by
  rcases hw : (normalizeSections raw).warnings with _ | w <;>
    rcases hc : (normalizeSections raw).claims with _ | cs
  · show normalizeSections (sectionsToJS (normalizeSections raw)) = _
    unfold sectionsToJS
    rw [hw, hc]
    have hred : normalizeSections (.obj ([] ++ [])) =
        { warnings := none, claims := none } := rfl
    rw [hred, ← hw, ← hc]
  · show normalizeSections (sectionsToJS (normalizeSections raw)) = _
    unfold sectionsToJS
    rw [hw, hc]
    obtain ⟨hlen, hinv⟩ := normalizeSections_claims_inv raw cs hc
    have hred : normalizeSections (.obj ([] ++ [(jstr "claims", .arr (cs.map .str))])) =
        { warnings := none,
          claims :=
            if ((cs.map JSValue.str).filterMap sectionClaimFilter).length > 0
              then some ((cs.map JSValue.str).filterMap sectionClaimFilter) else none } := rfl
    rw [hred, sectionFilter_self cs hinv, if_pos hlen, ← hw, ← hc]
  · show normalizeSections (sectionsToJS (normalizeSections raw)) = _
    unfold sectionsToJS
    rw [hw, hc]
    obtain ⟨htrim, hlen⟩ := normalizeSections_warnings_inv raw w hw
    have hred : normalizeSections (.obj ([(jstr "warnings", .str w)] ++ [])) =
        { warnings := if (trimStr w).length > 0 then some (trimStr w) else none,
          claims := none } := rfl
    rw [hred, htrim, if_pos hlen, ← hw, ← hc]
  · show normalizeSections (sectionsToJS (normalizeSections raw)) = _
    unfold sectionsToJS
    rw [hw, hc]
    obtain ⟨htrim, hwlen⟩ := normalizeSections_warnings_inv raw w hw
    obtain ⟨hclen, hinv⟩ := normalizeSections_claims_inv raw cs hc
    have hred : normalizeSections
        (.obj ([(jstr "warnings", .str w)] ++ [(jstr "claims", .arr (cs.map .str))])) =
        { warnings := if (trimStr w).length > 0 then some (trimStr w) else none,
          claims :=
            if ((cs.map JSValue.str).filterMap sectionClaimFilter).length > 0
              then some ((cs.map JSValue.str).filterMap sectionClaimFilter) else none } := rfl
    rw [hred, htrim, if_pos hwlen, sectionFilter_self cs hinv, if_pos hclen, ← hw, ← hc]

/-! ## Helper lemmas: explanation items -/

theorem itemSources_mem (v : JSValue) (s : JStr) (h : s ∈ itemSources v) :
    (trimStr s).length > 0 := by
  cases v with
  | arr ss =>
    have h2 : itemSources (.arr ss) = ss.filterMap itemSourceFilter := rfl
    rw [h2, List.mem_filterMap] at h
    obtain ⟨a, _, ha⟩ := h
    cases a with
    | str t =>
      have h3 : itemSourceFilter (.str t) =
          if (trimStr t).length > 0 then some t else none := rfl
      rw [h3] at ha
      split at ha
      · next hl =>
        injection ha with h4
        subst h4
        exact hl
      · exact Option.noConfusion ha
    | undefined => exact Option.noConfusion ha
    | null => exact Option.noConfusion ha
    | nan => exact Option.noConfusion ha
    | bool b => exact Option.noConfusion ha
    | num q => exact Option.noConfusion ha
    | arr ys => exact Option.noConfusion ha
    | obj fs => exact Option.noConfusion ha
  | undefined => exact absurd h (List.not_mem_nil s)
  | null => exact absurd h (List.not_mem_nil s)
  | nan => exact absurd h (List.not_mem_nil s)
  | bool b => exact absurd h (List.not_mem_nil s)
  | num q => exact absurd h (List.not_mem_nil s)
  | str t => exact absurd h (List.not_mem_nil s)
  | obj fs => exact absurd h (List.not_mem_nil s)

theorem sourceFilter_self (l : List JStr)
    (h : ∀ s ∈ l, (trimStr s).length > 0) :
    (l.map JSValue.str).filterMap itemSourceFilter = l := by
  induction l with
  | nil => rfl
  | cons s rest ih =>
    have hf : itemSourceFilter (.str s) = some s := by
      have h2 : itemSourceFilter (.str s) =
          if (trimStr s).length > 0 then some s else none := rfl
      rw [h2, if_pos (h s (List.mem_cons_self s rest))]
    rw [List.map_cons, List.filterMap_cons, hf,
      ih (fun d hd => h d (List.mem_cons_of_mem s hd))]

theorem buildItem_eq_some (e : JSValue) (it : ExplanationItem)
    (h : buildItem e = some it) :
    (∀ s ∈ it.sources, (trimStr s).length > 0) ∧
      normalizeCertainty (.num it.certainty) = it.certainty := by
  unfold buildItem at h
  split at h
  · exact Option.noConfusion h
  · injection h with h2
    subst h2
    refine ⟨?_, ?_⟩
    · intro s hs
      exact itemSources_mem _ s hs
    · show normalizeCertainty
        (.num (normalizeCertainty (getField e (jstr "certainty")))) = _
      rw [normalizeCertainty_eq_confidence, normalizeCertainty_eq_confidence]
      exact normalizeConfidence_idem _

theorem buildItem_itemToJS (it : ExplanationItem)
    (hsrc : ∀ s ∈ it.sources, (trimStr s).length > 0)
    (hcert : normalizeCertainty (.num it.certainty) = it.certainty) :
    buildItem (itemToJS it) = some it := by
  have hred : buildItem (itemToJS it) = some {
      name := it.name
      function := it.function
      risk_level := normalizeRiskLevel (riskToJS it.risk_level)
      why := it.why
      certainty := normalizeCertainty (.num it.certainty)
      sources := itemSources (.arr (it.sources.map .str)) } := rfl
  have hsources : itemSources (.arr (it.sources.map .str)) = it.sources := by
    show (it.sources.map .str).filterMap itemSourceFilter = it.sources
    exact sourceFilter_self it.sources hsrc
  rw [hred, normalizeRiskLevel_riskToJS, hcert, hsources]

theorem filterMap_buildItem_self (l : List ExplanationItem)
    (h : ∀ it ∈ l, buildItem (itemToJS it) = some it) :
    (l.map itemToJS).filterMap buildItem = l := by
  induction l with
  | nil => rfl
  | cons it rest ih =>
    rw [List.map_cons, List.filterMap_cons, h it (List.mem_cons_self it rest),
      ih (fun d hd => h d (List.mem_cons_of_mem it hd))]

theorem normalizeItems_mem (v : JSValue) (it : ExplanationItem)
    (h : it ∈ normalizeItems v) : ∃ e, buildItem e = some it := by
  cases v with
  | arr xs =>
    have h2 : normalizeItems (.arr xs) = xs.filterMap buildItem := rfl
    rw [h2, List.mem_filterMap] at h
    obtain ⟨e, _, he⟩ := h
    exact ⟨e, he⟩
  | undefined => exact absurd h (List.not_mem_nil it)
  | null => exact absurd h (List.not_mem_nil it)
  | nan => exact absurd h (List.not_mem_nil it)
  | bool b => exact absurd h (List.not_mem_nil it)
  | num q => exact absurd h (List.not_mem_nil it)
  | str t => exact absurd h (List.not_mem_nil it)
  | obj fs => exact absurd h (List.not_mem_nil it)

theorem normalizeItems_idem (v : JSValue) :
    normalizeItems (itemsToJS (normalizeItems v)) = normalizeItems v := by
  show ((normalizeItems v).map itemToJS).filterMap buildItem = normalizeItems v
  apply filterMap_buildItem_self
  intro it hit
  obtain ⟨e, he⟩ := normalizeItems_mem v it hit
  obtain ⟨hs, hc⟩ := buildItem_eq_some e it he
  exact buildItem_itemToJS it hs hc

/-! ## Helper lemmas: attempt loops -/

theorem tryModels_first_success (resp : JStr → HttpResp) (pre : List JStr)
    (c : JStr) (post : List JStr) (s0 : Option Nat) (e0 : JStr)
    (hpre : ∀ d ∈ pre, (resp d).ok = false) (hc : (resp c).ok = true) :
    tryModels resp (pre ++ c :: post) s0 e0 = .ok (resp c) := by
  induction pre generalizing s0 e0 with
  | nil =>
    show tryModels resp (c :: post) s0 e0 = .ok (resp c)
    simp [tryModels, hc]
  | cons d pre ih =>
    have hd : (resp d).ok = false := hpre d (List.mem_cons_self d pre)
    show tryModels resp (d :: (pre ++ c :: post)) s0 e0 = .ok (resp c)
    simp only [tryModels, hd, Bool.false_eq_true, if_false]
    have ihx := fun s e => ih s e (fun d2 hd2 => hpre d2 (List.mem_cons_of_mem d hd2))
    split
    · exact ihx _ _
    · exact ihx _ _

theorem tryModels_all_fail (resp : JStr → HttpResp) (ms : List JStr) (last : JStr)
    (s0 : Option Nat) (e0 : JStr)
    (h : ∀ d ∈ ms ++ [last], (resp d).ok = false) :
    tryModels resp (ms ++ [last]) s0 e0 =
      .error ((resp last).status, (resp last).body) := by
  induction ms generalizing s0 e0 with
  | nil =>
    have hlast : (resp last).ok = false := h last (by simp)
    show tryModels resp (last :: []) s0 e0 = _
    simp only [tryModels, hlast, Bool.false_eq_true, if_false]
    split
    · show tryModels resp [] (some (resp last).status) (resp last).body = _
      simp [tryModels]
    · show tryModels resp [] (some (resp last).status) (resp last).body = _
      simp [tryModels]
  | cons d ms ih =>
    have hd : (resp d).ok = false := h d (List.mem_cons_self d _)
    show tryModels resp (d :: (ms ++ [last])) s0 e0 = _
    simp only [tryModels, hd, Bool.false_eq_true, if_false]
    have ihx := fun s e => ih s e (fun d2 hd2 => h d2 (List.mem_cons_of_mem d hd2))
    split
    · exact ihx _ _
    · exact ihx _ _

/-! ## Claim theorems -/

/-- Claim C1, counterexample: a parsed upstream object carrying `summary` and
`disclaimer` as empty strings yields an Explanation Result whose disclaimer
is the empty string and whose summary did not fall back to the default text,
refuting both the "only when present as a non-empty string" fallback
condition and the "always carries a non-empty disclaimer" consequence
(the source checks only `typeof === "string"`, not non-emptiness). -/
theorem explain_disclaimer_passthrough_cex :
    (explainFromParsed
      (.obj [(jstr "summary", .str []), (jstr "disclaimer", .str [])])).disclaimer = [] ∧
    (explainFromParsed
      (.obj [(jstr "summary", .str []), (jstr "disclaimer", .str [])])).summary ≠
        EXPLAIN_DEFAULT_RESULT.summary ∧
    EXPLAIN_DEFAULT_RESULT.disclaimer ≠ [] := by
  refine ⟨by decide, by decide, by decide⟩

/-- Claim C1, amended: `explainIngredients` uses the raw `summary` and
`disclaimer` whenever each is present as a string — including the empty
string, which is used verbatim — and falls back independently to the default
text only when the field is missing or not string-typed; consequently the
resulting disclaimer is empty exactly when the raw object supplies an
empty-string disclaimer, and is non-empty in every other case. -/
theorem explain_fallback_on_nonstring (raw : JSValue) :
    (∀ s, getField raw (jstr "summary") = .str s →
      (explainFromParsed raw).summary = s) ∧
    ((∀ s, getField raw (jstr "summary") ≠ .str s) →
      (explainFromParsed raw).summary = EXPLAIN_DEFAULT_RESULT.summary) ∧
    (∀ s, getField raw (jstr "disclaimer") = .str s →
      (explainFromParsed raw).disclaimer = s) ∧
    ((∀ s, getField raw (jstr "disclaimer") ≠ .str s) →
      (explainFromParsed raw).disclaimer = EXPLAIN_DEFAULT_RESULT.disclaimer) ∧
    ((explainFromParsed raw).disclaimer = [] ↔
      getField raw (jstr "disclaimer") = .str []) ∧
    EXPLAIN_DEFAULT_RESULT.disclaimer ≠ [] := by
  have hsum : (explainFromParsed raw).summary =
      (match getField raw (jstr "summary") with
        | .str s => s
        | _ => EXPLAIN_DEFAULT_RESULT.summary) := rfl
  have hdis : (explainFromParsed raw).disclaimer =
      (match getField raw (jstr "disclaimer") with
        | .str s => s
        | _ => EXPLAIN_DEFAULT_RESULT.disclaimer) := rfl
  have hne : EXPLAIN_DEFAULT_RESULT.disclaimer ≠ [] := by decide
  refine ⟨?_, ?_, ?_, ?_, ?_, hne⟩
  · intro s h
    rw [hsum, h]
  · intro h
    rw [hsum]
    rcases hg : getField raw (jstr "summary") with _ | _ | _ | b | q | s | xs | fs
    all_goals try rfl
    exact absurd hg (h s)
  · intro s h
    rw [hdis, h]
  · intro h
    rw [hdis]
    rcases hg : getField raw (jstr "disclaimer") with _ | _ | _ | b | q | s | xs | fs
    all_goals try rfl
    exact absurd hg (h s)
  · constructor
    · intro h
      rw [hdis] at h
      rcases hg : getField raw (jstr "disclaimer") with _ | _ | _ | b | q | s | xs | fs
      all_goals rw [hg] at h
      all_goals try exact absurd h hne
      have h2 : s = [] := h
      rw [h2]
    · intro h
      rw [hdis, h]

/-- Claim C1, amended, witness at a concrete input: a string-typed disclaimer
is used verbatim. -/
theorem explain_fallback_on_nonstring_witness :
    (explainFromParsed
      (.obj [(jstr "disclaimer", .str (jstr "Be careful."))])).disclaimer =
      jstr "Be careful." :=
  (explain_fallback_on_nonstring
    (.obj [(jstr "disclaimer", .str (jstr "Be careful."))])).2.2.1
    (jstr "Be careful.") rfl

/-- Claim C2: whenever the normalized ingredient list of the extraction
result is empty, the final confidence is `min(confidence, 0.2)` of the
normalized upstream confidence, hence at most 0.2; in particular an upstream
confidence of 0.95 with zero ingredients yields exactly 0.2 (1/5). -/
theorem ocr_confidence_cap :
    (∀ raw : JSValue, (buildOCRResult raw).ingredients = [] →
      (buildOCRResult raw).confidence =
        min (normalizeConfidence (getField raw (jstr "confidence"))) (1 / 5) ∧
      (buildOCRResult raw).confidence ≤ 1 / 5) ∧
    (buildOCRResult (.obj [(jstr "confidence", .num (95 / 100))])).ingredients = [] ∧
    (buildOCRResult (.obj [(jstr "confidence", .num (95 / 100))])).confidence = 1 / 5 := by
  have hbuild : ∀ raw : JSValue, buildOCRResult raw =
      if (normalizeIngredients (getField raw (jstr "ingredients"))).length = 0 then
        { domain_guess := normalizeDomain (getField raw (jstr "domain_guess"))
          ingredients := normalizeIngredients (getField raw (jstr "ingredients"))
          sections := normalizeSections (getField raw (jstr "sections"))
          confidence := min (normalizeConfidence (getField raw (jstr "confidence"))) (1 / 5)
          language := normalizeLanguage (getField raw (jstr "language")) }
      else
        { domain_guess := normalizeDomain (getField raw (jstr "domain_guess"))
          ingredients := normalizeIngredients (getField raw (jstr "ingredients"))
          sections := normalizeSections (getField raw (jstr "sections"))
          confidence := normalizeConfidence (getField raw (jstr "confidence"))
          language := normalizeLanguage (getField raw (jstr "language")) } :=
    fun raw => rfl
  refine ⟨?_, ?_, ?_⟩
  · intro raw h
    rw [hbuild raw] at h ⊢
    by_cases hlen : (normalizeIngredients (getField raw (jstr "ingredients"))).length = 0
    · rw [if_pos hlen] at h ⊢
      exact ⟨rfl, min_le_right _ _⟩
    · rw [if_neg hlen] at h
      have h2 : normalizeIngredients (getField raw (jstr "ingredients")) = [] := h
      rw [List.length_eq_zero] at hlen
      exact absurd h2 hlen
  · decide
  · rw [hbuild]
    rw [if_pos (by decide)]
    show min (normalizeConfidence (.num (95 / 100))) (1 / 5) = 1 / 5
    have h95 : normalizeConfidence (.num (95 / 100)) = 19 / 20 := by
      simp only [normalizeConfidence]
      rw [if_neg (by norm_num), if_neg (by norm_num)]
      unfold roundTo3
      rw [show ((95 : ℚ) / 100) * 1000 = ((950 : ℤ) : ℚ) by norm_num, round_intCast]
      norm_num
    rw [h95, min_eq_right (by norm_num)]

/-- Claim C2, witness: the cap theorem applied at a raw object with upstream
confidence 0.95 and an empty ingredient array. -/
theorem ocr_confidence_cap_witness :
    (buildOCRResult (.obj [(jstr "confidence", .num (95 / 100)),
      (jstr "ingredients", .arr [])])).confidence ≤ 1 / 5 :=
  (ocr_confidence_cap.1 (.obj [(jstr "confidence", .num (95 / 100)),
    (jstr "ingredients", .arr [])]) (by decide)).2

/-- Claim C3: `normalizeIngredients` accepts a single string or a list
(anything else yields `[]`), skips non-string list elements, and its output —
obtained by splitting on newline/bullet then on semicolon/comma, trimming,
lowercasing, dropping empty fragments and deduplicating in first-seen order —
contains no duplicates and no empty strings; the documented example input
normalizes to exactly `["water", "sugar", "artificial flavor"]`. -/
theorem normalizeIngredients_spec :
    (∀ v : JSValue, (∀ s, v ≠ .str s) → (∀ xs, v ≠ .arr xs) →
      normalizeIngredients v = []) ∧
    (∀ (e : JSValue) (xs : List JSValue), (∀ s, e ≠ .str s) →
      normalizeIngredients (.arr (e :: xs)) = normalizeIngredients (.arr xs)) ∧
    (∀ v : JSValue, (normalizeIngredients v).Nodup ∧ [] ∉ normalizeIngredients v) ∧
    normalizeIngredients (.str (jstr "Water, Sugar\nArtificial Flavor; Sugar")) =
      [jstr "water", jstr "sugar", jstr "artificial flavor"] := by
  refine ⟨?_, ?_, ?_, by decide⟩
  · intro v hs hx
    cases v with
    | str s => exact absurd rfl (hs s)
    | arr xs => exact absurd rfl (hx xs)
    | bool b =>
      unfold normalizeIngredients
      split
      · rfl
      · rfl
    | num q =>
      unfold normalizeIngredients
      split
      · rfl
      · rfl
    | undefined => rfl
    | null => rfl
    | nan => rfl
    | obj fs => rfl
  · intro e xs he
    have h1 : normalizeIngredients (.arr (e :: xs)) =
        dedupKeepFirst ((e :: xs).flatMap entryIngredients) := rfl
    have h2 : normalizeIngredients (.arr xs) =
        dedupKeepFirst (xs.flatMap entryIngredients) := rfl
    have hfe : entryIngredients e = [] := by
      cases e with
      | str s => exact absurd rfl (he s)
      | undefined => rfl
      | null => rfl
      | nan => rfl
      | bool b => rfl
      | num q => rfl
      | arr ys => rfl
      | obj fs => rfl
    rw [h1, h2, List.flatMap_cons, hfe, List.nil_append]
  · intro v
    refine ⟨normalizeIngredients_nodup v, ?_⟩
    intro hmem
    exact (normalizeIngredients_mem_good v [] hmem).2.2.2 rfl

/-- Claim C3, witness: a non-string, non-list value normalizes to the empty
list, and a non-string element inside a list is skipped. -/
theorem normalizeIngredients_spec_witness :
    normalizeIngredients (.bool true) = [] ∧
    normalizeIngredients (.arr [.num (1 / 2), .str (jstr "salt")]) =
      normalizeIngredients (.arr [.str (jstr "salt")]) :=
  ⟨normalizeIngredients_spec.1 (.bool true) (fun _ h => JSValue.noConfusion h)
      (fun _ h => JSValue.noConfusion h),
    normalizeIngredients_spec.2.1 (.num (1 / 2)) [.str (jstr "salt")]
      (fun _ h => JSValue.noConfusion h)⟩

/-- Claim C4: `normalizeConfidence` (and the identical `normalizeCertainty`)
always lands in [0, 1] as a multiple of 1/1000: non-numeric or NaN input maps
to 0, values below 0 clamp to 0, values above 1 clamp to 1, and in-range
values are rounded to the nearest 3-decimal value. -/
theorem normalizeConfidence_spec :
    (∀ v : JSValue, 0 ≤ normalizeConfidence v ∧ normalizeConfidence v ≤ 1) ∧
    (∀ v : JSValue, ∃ n : ℤ, normalizeConfidence v = (n : ℚ) / 1000) ∧
    (∀ v : JSValue, (∀ q : ℚ, v ≠ .num q) → normalizeConfidence v = 0) ∧
    (∀ q : ℚ, q < 0 → normalizeConfidence (.num q) = 0) ∧
    (∀ q : ℚ, 1 < q → normalizeConfidence (.num q) = 1) ∧
    (∀ q : ℚ, 0 ≤ q → q ≤ 1 →
      normalizeConfidence (.num q) = ((round (q * 1000) : ℤ) : ℚ) / 1000 ∧
      |normalizeConfidence (.num q) - q| ≤ 1 / 2000) ∧
    (∀ v : JSValue, normalizeCertainty v = normalizeConfidence v) := by
  refine ⟨normalizeConfidence_range, ?_, ?_, ?_, ?_, ?_, normalizeCertainty_eq_confidence⟩
  · intro v
    obtain ⟨n, heq, _, _⟩ := normalizeConfidence_form v
    exact ⟨n, heq⟩
  · intro v h
    cases v with
    | num q => exact absurd rfl (h q)
    | undefined => rfl
    | null => rfl
    | nan => rfl
    | bool b => rfl
    | str s => rfl
    | arr xs => rfl
    | obj fs => rfl
  · intro q h
    simp only [normalizeConfidence]
    rw [if_pos h]
  · intro q h
    simp only [normalizeConfidence]
    rw [if_neg (by linarith), if_pos h]
  · intro q h0 h1
    have heq : normalizeConfidence (.num q) = ((round (q * 1000) : ℤ) : ℚ) / 1000 := by
      simp only [normalizeConfidence]
      rw [if_neg (not_lt.mpr h0), if_neg (not_lt.mpr h1)]
      rfl
    refine ⟨heq, ?_⟩
    rw [heq]
    have habs : |q * 1000 - ((round (q * 1000) : ℤ) : ℚ)| ≤ 1 / 2 := abs_sub_round (q * 1000)
    have h2 : ((round (q * 1000) : ℤ) : ℚ) / 1000 - q =
        -(q * 1000 - ((round (q * 1000) : ℤ) : ℚ)) / 1000 := by ring
    rw [h2, abs_div, abs_neg]
    rw [abs_of_pos (by norm_num : (0 : ℚ) < 1000)]
    linarith

/-- Claim C4, witness: a value above the range clamps to 1, a negative value
clamps to 0, an in-range value rounds to 3 decimals. -/
theorem normalizeConfidence_spec_witness :
    normalizeConfidence (.num (3 / 2)) = 1 ∧
    normalizeConfidence (.num (-1 / 2)) = 0 ∧
    normalizeConfidence (.num (1 / 2)) = ((round ((1 / 2 : ℚ) * 1000) : ℤ) : ℚ) / 1000 :=
  ⟨normalizeConfidence_spec.2.2.2.2.1 (3 / 2) (by norm_num),
    normalizeConfidence_spec.2.2.2.1 (-1 / 2) (by norm_num),
    (normalizeConfidence_spec.2.2.2.2.2.1 (1 / 2) (by norm_num) (by norm_num)).1⟩

/-- Claim C5: `normalizeItems` returns `[]` on non-array input; an element
that is falsy or not `typeof "object"` is dropped; every remaining element
yields exactly one Explanation Item whose `name` defaults to `"Unknown"` when
not string-typed, whose `function` and `why` default to the empty string,
whose `sources` keeps only strings that are non-empty after trimming (and is
`[]` when the raw field is not an array), and whose `risk_level` is `Unknown`
for any value other than the four literals — the item itself is never dropped
because of its `risk_level`. -/
theorem normalizeItems_spec :
    (∀ v : JSValue, (∀ xs, v ≠ .arr xs) → normalizeItems v = []) ∧
    (∀ (e : JSValue) (xs : List JSValue),
      isFalsy e = true ∨ jsTypeofObject e = false →
      normalizeItems (.arr (e :: xs)) = normalizeItems (.arr xs)) ∧
    (∀ (e : JSValue) (xs : List JSValue),
      isFalsy e = false → jsTypeofObject e = true →
      normalizeItems (.arr (e :: xs)) =
        { name := match getField e (jstr "name") with | .str s => s | _ => jstr "Unknown"
          function := match getField e (jstr "function") with | .str s => s | _ => []
          risk_level := normalizeRiskLevel (getField e (jstr "risk_level"))
          why := match getField e (jstr "why") with | .str s => s | _ => []
          certainty := normalizeCertainty (getField e (jstr "certainty"))
          sources := itemSources (getField e (jstr "sources")) } ::
          normalizeItems (.arr xs)) ∧
    (∀ (v : JSValue) (it : ExplanationItem) (s : JStr),
      it ∈ normalizeItems v → s ∈ it.sources → (trimStr s).length > 0) ∧
    (∀ w : JSValue, w ≠ .str (jstr "Green") → w ≠ .str (jstr "Yellow") →
      w ≠ .str (jstr "Red") → w ≠ .str (jstr "Unknown") →
      normalizeRiskLevel w = .Unknown) ∧
    (∀ v : JSValue, (∀ ss, v ≠ .arr ss) → itemSources v = []) := by
  refine ⟨?_, ?_, ?_, ?_, ?_, ?_⟩
  · intro v h
    cases v with
    | arr xs => exact absurd rfl (h xs)
    | undefined => rfl
    | null => rfl
    | nan => rfl
    | bool b => rfl
    | num q => rfl
    | str s => rfl
    | obj fs => rfl
  · intro e xs h
    have hb : buildItem e = none := by
      unfold buildItem
      rw [if_pos]
      rcases h with h | h
      · rw [h]
        rfl
      · rw [h]
        simp
    have h1 : normalizeItems (.arr (e :: xs)) = (e :: xs).filterMap buildItem := rfl
    have h2 : normalizeItems (.arr xs) = xs.filterMap buildItem := rfl
    rw [h1, h2, List.filterMap_cons, hb]
  · intro e xs hf ht
    have hb : buildItem e = some
        { name := match getField e (jstr "name") with | .str s => s | _ => jstr "Unknown"
          function := match getField e (jstr "function") with | .str s => s | _ => []
          risk_level := normalizeRiskLevel (getField e (jstr "risk_level"))
          why := match getField e (jstr "why") with | .str s => s | _ => []
          certainty := normalizeCertainty (getField e (jstr "certainty"))
          sources := itemSources (getField e (jstr "sources")) } := by
      unfold buildItem
      rw [if_neg]
      rw [hf, ht]
      simp
    have h1 : normalizeItems (.arr (e :: xs)) = (e :: xs).filterMap buildItem := rfl
    have h2 : normalizeItems (.arr xs) = xs.filterMap buildItem := rfl
    rw [h1, h2, List.filterMap_cons, hb]
  · intro v it s hit hs
    obtain ⟨e, he⟩ := normalizeItems_mem v it hit
    exact (buildItem_eq_some e it he).1 s hs
  · intro w h1 h2 h3 h4
    cases w with
    | str s =>
      have n1 : s ≠ jstr "Green" := fun he => h1 (by rw [he])
      have n2 : s ≠ jstr "Yellow" := fun he => h2 (by rw [he])
      have n3 : s ≠ jstr "Red" := fun he => h3 (by rw [he])
      have n4 : s ≠ jstr "Unknown" := fun he => h4 (by rw [he])
      simp only [normalizeRiskLevel]
      rw [if_neg n1, if_neg n2, if_neg n3, if_neg n4]
    | undefined => rfl
    | null => rfl
    | nan => rfl
    | bool b => rfl
    | num q => rfl
    | arr xs => rfl
    | obj fs => rfl
  · intro v h
    cases v with
    | arr ss => exact absurd rfl (h ss)
    | undefined => rfl
    | null => rfl
    | nan => rfl
    | bool b => rfl
    | num q => rfl
    | str s => rfl
    | obj fs => rfl

/-- Claim C5, witness: an empty object inside the items array is kept and
normalizes to the all-default item (name "Unknown", empty function/why,
risk level Unknown, certainty 0, no sources), while a plain string element
is dropped. -/
theorem normalizeItems_spec_witness :
    normalizeItems (.arr [.obj [], .str (jstr "noise")]) =
      [{ name := jstr "Unknown", function := [], risk_level := .Unknown,
         why := [], certainty := 0, sources := [] }] := by
  have h1 := normalizeItems_spec.2.2.1 (.obj []) [.str (jstr "noise")] rfl rfl
  have h2 := normalizeItems_spec.2.1 (.str (jstr "noise")) []
    (Or.inr rfl)
  rw [h1, h2]
  rfl

/-- Claim C6: the candidate-model attempt loop of `explainIngredients`
returns the first successful candidate's response; every failed attempt —
whether its status is 400/422 or anything else — moves on to the next
candidate; only when every candidate fails does it raise, carrying the last
observed status and error body; in particular two 422 responses followed by a
succeeding default candidate yield that third candidate's response. -/
theorem tryModels_spec :
    (∀ (resp : JStr → HttpResp) (pre : List JStr) (c : JStr) (post : List JStr)
      (s0 : Option Nat) (e0 : JStr),
      (∀ d ∈ pre, (resp d).ok = false) → (resp c).ok = true →
      tryModels resp (pre ++ c :: post) s0 e0 = .ok (resp c)) ∧
    (∀ (resp : JStr → HttpResp) (ms : List JStr) (last : JStr)
      (s0 : Option Nat) (e0 : JStr),
      (∀ d ∈ ms ++ [last], (resp d).ok = false) →
      tryModels resp (ms ++ [last]) s0 e0 =
        .error ((resp last).status, (resp last).body)) ∧
    (∀ (resp : JStr → HttpResp) (m1 m2 : JStr),
      (resp m1).ok = false → (resp m1).status = 422 →
      (resp m2).ok = false → (resp m2).status = 422 →
      (resp DEFAULT_MODEL).ok = true →
      tryModels resp [m1, m2, DEFAULT_MODEL] none [] = .ok (resp DEFAULT_MODEL)) := by
  refine ⟨tryModels_first_success, tryModels_all_fail, ?_⟩
  intro resp m1 m2 h1 _ h2 _ h3
  have := tryModels_first_success resp [m1, m2] DEFAULT_MODEL [] none []
    (by
      intro d hd
      rcases List.mem_cons.mp hd with h | h
      · rw [h]
        exact h1
      · rcases List.mem_cons.mp h with h | h
        · rw [h]
          exact h2
        · exact absurd h (List.not_mem_nil d))
    h3
  exact this

/-- Concrete network behavior used by the C6 witness: two 422-failing
candidates followed by the succeeding default model. -/
def respWitness : JStr → HttpResp := fun m =>
  if m = jstr "model-a" then { ok := false, status := 422, body := jstr "bad-a" }
  else if m = jstr "model-b" then { ok := false, status := 422, body := jstr "bad-b" }
  else { ok := true, status := 200, body := jstr "fine" }

/-- Claim C6, witness: concrete 422/422/success run of the candidate loop. -/
theorem tryModels_spec_witness :
    tryModels respWitness [jstr "model-a", jstr "model-b", DEFAULT_MODEL] none [] =
      .ok (respWitness DEFAULT_MODEL) :=
  tryModels_spec.2.2 respWitness (jstr "model-a") (jstr "model-b")
    (by decide) (by decide) (by decide) (by decide) (by decide)

/-- Claim C7: the vision extraction call retries exactly once, with the
relaxed `json_object` format, when and only when the first (`json_schema`)
attempt fails with HTTP 400 or 422; a first-attempt success is returned
as-is, any other first-attempt failure status is terminal with that status
and body, and a failed retry is terminal with the retry's status and body. -/
theorem analyzeLabelFetch_spec :
    (∀ doFetch : RespFormat → HttpResp, (doFetch .json_schema).ok = true →
      analyzeLabelFetch doFetch = .ok (doFetch .json_schema)) ∧
    (∀ doFetch : RespFormat → HttpResp, (doFetch .json_schema).ok = false →
      ((doFetch .json_schema).status = 400 ∨ (doFetch .json_schema).status = 422) →
      (doFetch .json_object).ok = true →
      analyzeLabelFetch doFetch = .ok (doFetch .json_object)) ∧
    (∀ doFetch : RespFormat → HttpResp, (doFetch .json_schema).ok = false →
      ((doFetch .json_schema).status = 400 ∨ (doFetch .json_schema).status = 422) →
      (doFetch .json_object).ok = false →
      analyzeLabelFetch doFetch =
        .error ((doFetch .json_object).status, (doFetch .json_object).body)) ∧
    (∀ doFetch : RespFormat → HttpResp, (doFetch .json_schema).ok = false →
      (doFetch .json_schema).status ≠ 400 → (doFetch .json_schema).status ≠ 422 →
      analyzeLabelFetch doFetch =
        .error ((doFetch .json_schema).status, (doFetch .json_schema).body)) := by
  refine ⟨?_, ?_, ?_, ?_⟩
  · intro f h
    simp [analyzeLabelFetch, h]
  · intro f h hs h2
    rcases hs with hs | hs
    · simp [analyzeLabelFetch, h, hs, h2]
    · simp [analyzeLabelFetch, h, hs, h2]
  · intro f h hs h2
    rcases hs with hs | hs
    · simp [analyzeLabelFetch, h, hs, h2]
    · simp [analyzeLabelFetch, h, hs, h2]
  · intro f h hs1 hs2
    simp [analyzeLabelFetch, h, hs1, hs2]

/-- Concrete network behavior used by the C7 witness: schema attempt rejected
with 422, relaxed retry succeeds. -/
def fetchWitness : RespFormat → HttpResp
  | .json_schema => { ok := false, status := 422, body := jstr "schema rejected" }
  | .json_object => { ok := true, status := 200, body := jstr "ok" }

/-- Claim C7, witness: a 422 on the strict attempt followed by a succeeding
relaxed retry yields the retry's response. -/
theorem analyzeLabelFetch_spec_witness :
    analyzeLabelFetch fetchWitness = .ok (fetchWitness .json_object) :=
  analyzeLabelFetch_spec.2.1 fetchWitness rfl (Or.inr rfl) rfl

/-- Claim C8: `fetch_json` rejects with a whitelist error, for every possible
network behavior, unless the URL's hostname is one of the two allowed domains
or a subdomain thereof (`evil.com` is rejected, `world.openfoodfacts.org` is
allowed); for allowed hostnames a non-success status raises with that status,
a content type not containing `application/json` (such as `text/html`, even
with HTTP 200) raises, and otherwise the parsed JSON body is returned. -/
theorem fetch_json_spec :
    isWhitelisted (some (jstr "evil.com")) = false ∧
    isWhitelisted (some (jstr "world.openfoodfacts.org")) = true ∧
    (∀ (h : Option JStr) (doFetch : Unit → FetchResponse),
      isWhitelisted h = false → fetch_json h doFetch = .error .notAllowed) ∧
    (∀ (h : Option JStr) (doFetch : Unit → FetchResponse),
      isWhitelisted h = true → (doFetch ()).ok = false →
      fetch_json h doFetch = .error (.httpStatus (doFetch ()).status)) ∧
    (∀ (h : Option JStr) (doFetch : Unit → FetchResponse),
      isWhitelisted h = true → (doFetch ()).ok = true →
      (doFetch ()).contentType = some (jstr "text/html") →
      fetch_json h doFetch = .error .notJson) ∧
    (∀ (h : Option JStr) (doFetch : Unit → FetchResponse) (ct : JStr),
      isWhitelisted h = true → (doFetch ()).ok = true →
      (doFetch ()).contentType = some ct →
      includesCU ct (jstr "application/json") = true →
      fetch_json h doFetch = .ok (doFetch ()).body) := by
  refine ⟨by decide, by decide, ?_, ?_, ?_, ?_⟩
  · intro h f hw
    simp [fetch_json, hw]
  · intro h f hw hok
    simp [fetch_json, hw, hok]
  · intro h f hw hok hct
    have hinc : includesCU (jstr "text/html") (jstr "application/json") = false := by decide
    simp [fetch_json, hw, hok, hct, hinc]
  · intro h f ct hw hok hct hinc
    simp [fetch_json, hw, hok, hct, hinc]

/-- Concrete network behavior used by the C8 witness: an HTTP 200 response
with an HTML content type. -/
def fetchRespWitness : Unit → FetchResponse := fun _ =>
  { ok := true, status := 200, contentType := some (jstr "text/html"), body := .null }

/-- Claim C8, witness: `evil.com` is rejected regardless of the network, and
an allowed hostname with a `text/html` 200 response is rejected as not
JSON. -/
theorem fetch_json_spec_witness :
    fetch_json (some (jstr "evil.com")) fetchRespWitness = .error .notAllowed ∧
    fetch_json (some (jstr "world.openfoodfacts.org")) fetchRespWitness =
      .error .notJson :=
  ⟨fetch_json_spec.2.2.1 (some (jstr "evil.com")) fetchRespWitness (by decide),
    fetch_json_spec.2.2.2.2.1 (some (jstr "world.openfoodfacts.org")) fetchRespWitness
      (by decide) rfl rfl⟩

/-- Claim C9: each field normalizer is idempotent — re-normalizing the
JavaScript value of an already-normalized domain, ingredient list, sections
object, confidence, language tag, or Explanation Item list returns the
identical value. -/
theorem normalizers_idempotent :
    (∀ v : JSValue, normalizeDomain (domainToJS (normalizeDomain v)) = normalizeDomain v) ∧
    (∀ v : JSValue, normalizeIngredients (ingredientsToJS (normalizeIngredients v)) =
      normalizeIngredients v) ∧
    (∀ v : JSValue, normalizeSections (sectionsToJS (normalizeSections v)) =
      normalizeSections v) ∧
    (∀ v : JSValue, normalizeConfidence (.num (normalizeConfidence v)) =
      normalizeConfidence v) ∧
    (∀ v : JSValue, normalizeLanguage (.str (normalizeLanguage v)) =
      normalizeLanguage v) ∧
    (∀ v : JSValue, normalizeItems (itemsToJS (normalizeItems v)) = normalizeItems v) :=
  ⟨fun v => normalizeDomain_domainToJS (normalizeDomain v),
    normalizeIngredients_idem,
    normalizeSections_idem,
    normalizeConfidence_idem,
    normalizeLanguage_idem,
    normalizeItems_idem⟩

/-- Claim C10 (implicit invariant): every string produced by
`normalizeIngredients` is free of the four separator code units — newline,
the bullet character U+2022, comma and semicolon — carries no leading or
trailing whitespace (it is its own trim), and is entirely lowercase (it is
its own lowercasing). -/
theorem ingredient_string_invariant (v : JSValue) (s : JStr)
    (hs : s ∈ normalizeIngredients v) :
    (∀ c ∈ s, c ≠ 10 ∧ c ≠ 8226 ∧ c ≠ 44 ∧ c ≠ 59) ∧
    trimStr s = s ∧ lowerStr s = s := by
  obtain ⟨hsep, htrim, hlow, _⟩ := normalizeIngredients_mem_good v s hs
  refine ⟨?_, htrim, hlow⟩
  intro c hc
  obtain ⟨h1, h2⟩ := hsep c hc
  unfold isSep1 at h1
  unfold isSep2 at h2
  simp only [Bool.or_eq_false_iff, decide_eq_false_iff_not] at h1 h2
  exact ⟨h1.1, h1.2, h2.2, h2.1⟩

/-- Claim C10, witness: the invariant applied to the normalization of the
string " Mixed CASE , dup " (one entry with surrounding whitespace and mixed
case). -/
theorem ingredient_string_invariant_witness :
    trimStr (jstr "mixed case") = jstr "mixed case" ∧
    lowerStr (jstr "mixed case") = jstr "mixed case" :=
  ⟨(ingredient_string_invariant (.str (jstr " Mixed CASE , dup "))
      (jstr "mixed case") (by decide)).2.1,
    (ingredient_string_invariant (.str (jstr " Mixed CASE , dup "))
      (jstr "mixed case") (by decide)).2.2⟩

end LabelSimplified
